import Mathlib

/-!
Shallow embedding of the sibling-image navigation program of rsmaxwell/pages
(src/cmd/page/page.go and the unnamed variant src/unnamed/part_000, which share
the navigation logic), together with the level-gating logic of
src/internal/debug/debug.go.

Conventions of the embedding:
- Go strings are Lean `String`; the Go byte-wise comparison `<` on UTF-8
  strings coincides with lexicographic comparison of the code points, which is
  what `charListLtb` below computes over `String.data`.
- Go `int` is `Int`; the not-found sentinel `-1` is kept as in the source.
- A Go runtime panic (out-of-range slice index) is modelled by an explicit
  `error` value of an `Except`, and `os.Exit(1)` by a dedicated outcome
  constructor, so that fallible code is total.
- `strings.ToLower` is modelled on the ASCII range (the only characters the
  accepted-extension test can match are ASCII).
-/

namespace Pages

/-- A directory entry as returned by `ioutil.ReadDir`: a base name and the
is-directory flag. Only these two attributes of `os.FileInfo` are consumed by
the program. -/
structure FileInfo where
  name : String
  isDir : Bool
  deriving DecidableEq

/-- `contains` from page.go lines 16-23: linear scan for an exact string
match. -/
def contains (s : List String) (e : String) : Bool :=
  match s with
  | [] => false
  | a :: rest => if a = e then true else contains rest e

/-- `validExtensions` from page.go line 101. -/
def validExtensions : List String := [".jpg", ".jpeg", ".png"]

/-- The suffix of a character list starting at its last occurrence of the
character given after a comma below, or `none` when the character does not
occur. -/
def extAux : List Char → Option (List Char)
  | [] => none
  | c :: cs =>
    match extAux cs with
    | some r => some r
    | none => if c = '.' then some (c :: cs) else none

/-- `filepath.Ext` restricted to base names (no path separators): the
substring from the last dot to the end of the name, or the empty string when
the name has no dot. -/
def ext (name : String) : String :=
  match extAux name.data with
  | some r => String.mk r
  | none => ""

/-- ASCII lowercasing of one character, as `strings.ToLower` acts on the
ASCII range. -/
def charToLower (c : Char) : Char :=
  if 65 ≤ c.toNat ∧ c.toNat ≤ 90 then Char.ofNat (c.toNat + 32) else c

/-- `strings.ToLower` on the ASCII range, applied code point by code
point. -/
def toLowerStr (s : String) : String :=
  String.mk (s.data.map charToLower)

/-- Byte-wise (equivalently, code-point-wise) strict comparison of two
character lists: the order Go computes for `string < string`. -/
def charListLtb : List Char → List Char → Bool
  | [], [] => false
  | [], _ :: _ => true
  | _ :: _, [] => false
  | a :: as, b :: bs =>
    if a.toNat < b.toNat then true
    else if b.toNat < a.toNat then false
    else charListLtb as bs

/-- Go `a < b` on strings. -/
def strLtb (a b : String) : Bool :=
  charListLtb a.data b.data

/-- Insert a name into a list, before the first element that is not below it
under `strLtb`. -/
def insertName (x : String) : List String → List String
  | [] => [x]
  | y :: ys => if strLtb y x then y :: insertName x ys else x :: y :: ys

/-- `sort.Slice(filelist, less)` with `less i j = Name i < Name j` (page.go
lines 110-112) reorders the slice so that the resulting name sequence is
non-decreasing under the byte-wise order; for a totally ordered key that
sequence is the one insertion sort produces. -/
def sortNames : List String → List String
  | [] => []
  | x :: xs => insertName x (sortNames xs)

/-- The filter loop of page.go lines 102-108: keep a child when the
lower-cased extension of its name is one of the accepted extensions, appending
to the accumulator in listing order. The loop never consults the is-directory
flag. Downstream only the names are used, so the accumulator holds names. -/
def filelistAux (children : List FileInfo) (acc : List String) : List String :=
  match children with
  | [] => acc
  | child :: rest =>
    filelistAux rest
      (if contains validExtensions (toLowerStr (ext child.name)) then acc ++ [child.name] else acc)

/-- The filtered sibling list (names, in listing order). -/
def filelist (children : List FileInfo) : List String :=
  filelistAux children []

/-- The sorted eligible sibling names: filter, then sort (page.go lines
101-112). -/
def orderedNames (children : List FileInfo) : List String :=
  sortNames (filelist children)

/-- The scan of page.go lines 114-119: `found := -1`, then for each index
`i`, overwrite `found` with `i` whenever the name at `i` equals the target.
No early exit. -/
def scanLoop (target : String) : List String → Nat → Int → Int
  | [], _, found => found
  | n :: ns, i, found => scanLoop target ns (i + 1) (if target = n then (i : Int) else found)

/-- `found` after the scan: the last matching index, or `-1`. -/
def findIndex (target : String) (names : List String) : Int :=
  scanLoop target names 0 (-1)

/-- The previous-button computation of page.go lines 127-135: when
`found > 0` the code reads `filelist[found-1]`; an out-of-range index would be
a runtime panic, modelled as `error`. -/
def previousResult (names : List String) (found : Int) : Except Unit (Option String) :=
  if 0 < found then
    match names[(found - 1).toNat]? with
    | some p => Except.ok (some p)
    | none => Except.error ()
  else Except.ok none

/-- The next-button computation of page.go lines 137-145: the guard is
`found < len(filelist)` (not `found + 1 < len`), and inside the guard the code
reads `filelist[found+1]`; an out-of-range index is a runtime panic, modelled
as `error`. -/
def nextResult (names : List String) (found : Int) : Except Unit (Option String) :=
  if found < (names.length : Int) then
    match names[(found + 1).toNat]? with
    | some nxt => Except.ok (some nxt)
    | none => Except.error ()
  else Except.ok none

/-- The navigation data the rendering layer consumes. -/
structure NavResult where
  orderedNames : List String
  targetIndex : Int
  previous : Option String
  next : Option String
  deriving DecidableEq

/-- Outcome of one run of the navigation part of `main`: a normal result, the
`os.Exit(1)` taken by page.go when the target is not found, or a Go runtime
panic from an out-of-range slice index. -/
inductive NavOutcome where
  | ok (r : NavResult)
  | exitNotFound
  | panicIndexOutOfRange
  deriving DecidableEq

/-- The navigation pipeline of src/cmd/page/page.go lines 101-145: filter,
sort, scan, exit when not found, then the previous and next buttons. -/
def navigate (children : List FileInfo) (target : String) : NavOutcome :=
  let names := orderedNames children
  let found := findIndex target names
  if found < 0 then NavOutcome.exitNotFound
  else
    match previousResult names found with
    | Except.error _ => NavOutcome.panicIndexOutOfRange
    | Except.ok prev =>
      match nextResult names found with
      | Except.error _ => NavOutcome.panicIndexOutOfRange
      | Except.ok nxt => NavOutcome.ok ⟨names, found, prev, nxt⟩

/-- The navigation pipeline of src/unnamed/part_000 lines 86-130: identical
except that a not-found target is only reported to stderr and the run
continues with `found = -1` into the button computations. -/
def navigateKeep (children : List FileInfo) (target : String) : NavOutcome :=
  let names := orderedNames children
  let found := findIndex target names
  match previousResult names found with
  | Except.error _ => NavOutcome.panicIndexOutOfRange
  | Except.ok prev =>
    match nextResult names found with
    | Except.error _ => NavOutcome.panicIndexOutOfRange
    | Except.ok nxt => NavOutcome.ok ⟨names, found, prev, nxt⟩

/-- Modelled from the spec (section 4.1 step 1 and the data model), for
comparison with `filelist`: the spec filters to entries that are NOT
directories and whose lower-cased extension is accepted. -/
def specFilelist (children : List FileInfo) : List String :=
  (children.filter
    (fun c => !c.isDir && contains validExtensions (toLowerStr (ext c.name)))).map
    (fun c => c.name)

/-- `validZooms` from page.go line 64. -/
def validZooms : List String := ["scale", "orig"]

/-- The zoom-mode selection of page.go lines 58-71: `zoom` starts as
`"scale"`; with no `zoom` parameter it stays `"scale"`; with exactly one
value, the value is assigned (as supplied, not lower-cased) when its
lower-casing is a valid zoom; with more than one value an error is printed and
`zoom` stays `"scale"`. -/
def zoomOf (zooms : List String) : String :=
  match zooms with
  | [value] => if contains validZooms (toLowerStr value) then value else "scale"
  | _ => "scale"

/-- The zoom-toggle icon of page.go lines 147-155: minus when the zoom mode
is `"scale"`, plus otherwise. -/
def zoomButton (zoom : String) : String :=
  if zoom = "scale" then " <div class=\"top-center\"><img src=\"images/minus.png\"></div> \n"
  else " <div class=\"top-center\"><img src=\"images/plus.png\"></div> \n"

/-- The target image element of page.go lines 147-155, built in whichever
zoom branch is taken. -/
def imageTag (zoom filename : String) : String :=
  if zoom = "scale" then " <img src=\"" ++ filename ++ "\" class=\"center-fit\" > \n"
  else " <img src=\"" ++ filename ++ "\" class=\"center-fit\" > \n"

/-- `Package` from debug.go: a name and a trace level. -/
structure Package where
  name : String
  level : Int
  deriving DecidableEq

/-- `Function` from debug.go: its package, a name and a trace level. -/
structure Function where
  pkg : Package
  name : String
  level : Int
  deriving DecidableEq

/-- `maxInt` from debug.go lines 49-55 on a 64-bit platform: all ones except
the high bit. -/
def maxInt : Int := 2 ^ 63 - 1

/-- `Function.Level` from debug.go lines 217-234: start from `maxInt` and
successively lower the effective level to the global level, the package level
and the function level whenever smaller. The global `level` variable is passed
explicitly. -/
def Function.Level (f : Function) (globalLevel : Int) : Int :=
  let effectiveLevel := maxInt
  let effectiveLevel := if globalLevel < effectiveLevel then globalLevel else effectiveLevel
  let effectiveLevel := if f.pkg.level < effectiveLevel then f.pkg.level else effectiveLevel
  let effectiveLevel := if f.level < effectiveLevel then f.level else effectiveLevel
  effectiveLevel

/-- The gate of `Function.Debug` (debug.go lines 182-192): the message is
written to the logger exactly when the three nested level tests pass. -/
def Function.DebugWrites (f : Function) (globalLevel l : Int) : Bool :=
  if l ≤ globalLevel then
    if l ≤ f.pkg.level then
      if l ≤ f.level then true
      else false
    else false
  else false

/-- The gate of `Function.Println` (debug.go lines 206-214), textually the
same three nested level tests as `Function.Debug`. -/
def Function.PrintlnWrites (f : Function) (globalLevel l : Int) : Bool :=
  if l ≤ globalLevel then
    if l ≤ f.pkg.level then
      if l ≤ f.level then true
      else false
    else false
  else false

/-- `contains` is exact membership. -/
theorem contains_iff (s : List String) (e : String) : contains s e = true ↔ e ∈ s := by
  induction s with
  | nil => simp [contains]
  | cons a rest ih =>
    by_cases h : a = e
    · simp [contains, h]
    · simp [contains, h, ih]
      intro he
      exact absurd he.symm h

/-- A character list without a dot has no extension suffix. -/
theorem extAux_of_not_mem (cs : List Char) (h : '.' ∉ cs) : extAux cs = none := by
  induction cs with
  | nil => rfl
  | cons c cs ih =>
    have h1 : ¬ c = '.' := fun e => h (by rw [e]; exact List.mem_cons_self '.' cs)
    have h2 : '.' ∉ cs := fun m => h (List.mem_cons_of_mem c m)
    simp [extAux, ih h2, h1]

/-- A name without a dot has the empty extension. -/
theorem ext_of_not_mem (name : String) (h : '.' ∉ name.data) : ext name = "" := by
  simp [ext, extAux_of_not_mem name.data h]

/-- The filter loop is filtering followed by projection to names. -/
theorem filelistAux_eq (children : List FileInfo) :
    ∀ acc, filelistAux children acc =
      acc ++ (children.filter
        (fun c => contains validExtensions (toLowerStr (ext c.name)))).map (fun c => c.name) := by
  induction children with
  | nil => intro acc; simp [filelistAux]
  | cons c rest ih =>
    intro acc
    by_cases h : contains validExtensions (toLowerStr (ext c.name)) = true
    · simp [filelistAux, h, ih, List.filter_cons]
    · simp [filelistAux, h, ih, List.filter_cons]

/-- `filelist` is filtering followed by projection to names. -/
theorem filelist_eq (children : List FileInfo) :
    filelist children =
      (children.filter
        (fun c => contains validExtensions (toLowerStr (ext c.name)))).map (fun c => c.name) := by
  have h := filelistAux_eq children []
  rw [List.nil_append] at h
  exact h

/-- The byte-wise strict order is asymmetric. -/
theorem charListLtb_asymm (as : List Char) :
    ∀ bs, charListLtb as bs = true → charListLtb bs as = false := by
  induction as with
  | nil =>
    intro bs h
    cases bs with
    | nil => rfl
    | cons b bs => rfl
  | cons a as ih =>
    intro bs h
    cases bs with
    | nil => simp [charListLtb] at h
    | cons b bs =>
      by_cases h1 : a.toNat < b.toNat
      · have h2 : ¬ b.toNat < a.toNat := by omega
        simp [charListLtb, h1, h2]
      · by_cases h2 : b.toNat < a.toNat
        · simp [charListLtb, h1, h2] at h
        · simp [charListLtb, h1, h2] at h ⊢
          exact ih bs h

/-- Asymmetry of the Go string order. -/
theorem strLtb_asymm (a b : String) (h : strLtb a b = true) : strLtb b a = false :=
  charListLtb_asymm a.data b.data h

/-- The relation `a` does not come after `b` in the Go byte-wise string
order: the order in which `sort.Slice` leaves adjacent names. -/
def nameLe (a b : String) : Prop := strLtb b a = false

/-- The head of an insertion is the inserted name or the original head. -/
theorem insertName_head (x : String) (l : List String) :
    (insertName x l).head? = some x ∨ (insertName x l).head? = l.head? := by
  cases l with
  | nil => left; rfl
  | cons y ys =>
    by_cases h : strLtb y x = true
    · right; simp [insertName, h]
    · left; simp [insertName, h]

/-- Insertion preserves the non-decreasing chain. -/
theorem chain_insertName (x : String) (l : List String) (hl : List.Chain' nameLe l) :
    List.Chain' nameLe (insertName x l) := by
  induction l with
  | nil => exact List.chain'_singleton x
  | cons y ys ih =>
    have hl' := List.chain'_cons'.mp hl
    by_cases h : strLtb y x = true
    · rw [insertName, if_pos h]
      rw [List.chain'_cons']
      refine ⟨?_, ih hl'.2⟩
      intro z hz
      rcases insertName_head x ys with hh | hh
      · rw [hh] at hz
        simp at hz
        cases hz
        exact strLtb_asymm y x h
      · rw [hh] at hz
        exact hl'.1 z hz
    · rw [insertName, if_neg h]
      rw [List.chain'_cons']
      exact ⟨fun z hz => by simp at hz; cases hz; simpa [nameLe] using h, hl⟩

/-- The sorted name sequence is a non-decreasing chain under the byte-wise
order. -/
theorem chain_sortNames (l : List String) : List.Chain' nameLe (sortNames l) := by
  induction l with
  | nil => exact List.chain'_nil
  | cons x xs ih => exact chain_insertName x (sortNames xs) ih

/-- Insertion preserves membership. -/
theorem mem_insertName (x z : String) (l : List String) :
    z ∈ insertName x l ↔ z = x ∨ z ∈ l := by
  induction l with
  | nil => simp [insertName]
  | cons y ys ih =>
    by_cases h : strLtb y x = true
    · simp only [insertName, if_pos h, List.mem_cons, ih]
      tauto
    · simp only [insertName, if_neg h, List.mem_cons]

/-- Sorting preserves membership. -/
theorem mem_sortNames (z : String) (l : List String) : z ∈ sortNames l ↔ z ∈ l := by
  induction l with
  | nil => simp [sortNames]
  | cons x xs ih => simp [sortNames, mem_insertName, ih]

/-- A scan over names free of the target leaves the accumulator unchanged. -/
theorem scanLoop_not_mem (target : String) (names : List String) (h : target ∉ names) :
    ∀ i found, scanLoop target names i found = found := by
  induction names with
  | nil => intro i found; rfl
  | cons n ns ih =>
    intro i found
    have h1 : ¬ target = n := fun e => h (by rw [e]; exact List.mem_cons_self n ns)
    have h2 : target ∉ ns := fun m => h (List.mem_cons_of_mem n m)
    simp [scanLoop, h1, ih h2]

/-- When the target occurs at position `j` and at no later position, the scan
returns `i + j` regardless of the accumulator. -/
theorem scanLoop_last (target : String) (names : List String) :
    ∀ (i : Nat) (found : Int) (j : Nat) (hj : j < names.length),
      names.get ⟨j, hj⟩ = target →
      (∀ (k : Nat) (hk : k < names.length), j < k → names.get ⟨k, hk⟩ ≠ target) →
      scanLoop target names i found = ((i + j : Nat) : Int) := by
  induction names with
  | nil => intro i found j hj; simp at hj
  | cons n ns ih =>
    intro i found j hj hget hlast
    cases j with
    | zero =>
      have hn : target = n := by simpa using hget.symm
      have hnotail : target ∉ ns := by
        intro hmem
        obtain ⟨⟨k, hk⟩, hkeq⟩ := List.mem_iff_get.mp hmem
        exact hlast (k + 1) (by simpa using Nat.succ_lt_succ hk) (Nat.succ_pos k)
          (by simpa using hkeq)
      simp [scanLoop, hn]
      exact scanLoop_not_mem n ns (hn ▸ hnotail) (i + 1) (i : Int)
    | succ j' =>
      have hj' : j' < ns.length := by simpa using hj
      have hget' : ns.get ⟨j', hj'⟩ = target := by simpa using hget
      have hlast' : ∀ (k : Nat) (hk : k < ns.length), j' < k → ns.get ⟨k, hk⟩ ≠ target := by
        intro k hk hlt
        have := hlast (k + 1) (by simpa using Nat.succ_lt_succ hk) (Nat.succ_lt_succ hlt)
        simpa using this
      have hrec := ih (i + 1) (if target = n then (i : Int) else found) j' hj' hget' hlast'
      rw [scanLoop, hrec]
      congr 1
      omega

/-- The scan returns the accumulator or a valid offset position. -/
theorem scanLoop_range (target : String) (names : List String) :
    ∀ (i : Nat) (found : Int),
      scanLoop target names i found = found ∨
      ∃ j : Nat, j < names.length ∧ scanLoop target names i found = ((i + j : Nat) : Int) := by
  induction names with
  | nil => intro i found; left; rfl
  | cons n ns ih =>
    intro i found
    by_cases h : target = n
    · rcases ih (i + 1) (i : Int) with h1 | ⟨j, hj, h2⟩
      · right
        refine ⟨0, by simp, ?_⟩
        rw [scanLoop, if_pos h, h1]
        simp
      · right
        refine ⟨j + 1, by simpa using Nat.succ_lt_succ hj, ?_⟩
        rw [scanLoop, if_pos h, h2]
        congr 1
        omega
    · rcases ih (i + 1) found with h1 | ⟨j, hj, h2⟩
      · left
        rw [scanLoop, if_neg h, h1]
      · right
        refine ⟨j + 1, by simpa using Nat.succ_lt_succ hj, ?_⟩
        rw [scanLoop, if_neg h, h2]
        congr 1
        omega

/-- The found index is the sentinel or a valid position. -/
theorem findIndex_cases (target : String) (names : List String) :
    findIndex target names = -1 ∨
    ∃ j : Nat, j < names.length ∧ findIndex target names = (j : Int) := by
  rcases scanLoop_range target names 0 (-1) with h | ⟨j, hj, h⟩
  · left; exact h
  · right; exact ⟨j, hj, by simpa using h⟩

/-- Claim C1: the claim states that next is absent whenever
`targetIndex + 1` is not a valid position, in particular at the last valid
index, with no access past the end of the list. The code instead guards the
next button with `found < len(filelist)` and reads `filelist[found+1]`, so
with the one-element listing `["a.png"]` and target `"a.png"` (targetIndex 0,
the last index) the run ends in an out-of-range index access. -/
theorem c1_next_out_of_bounds :
    navigate [⟨"a.png", false⟩] "a.png" = NavOutcome.panicIndexOutOfRange := by
  decide

/-- Claim C2, counterexample: the claim requires directories to be excluded,
but the filter loop never consults the is-directory flag, so a directory named
`d.png` is kept by the code while the filter described by the spec drops
it. -/
theorem c2_counterexample :
    filelist [⟨"d.png", true⟩] ≠ specFilelist [⟨"d.png", true⟩] := by
  decide

/-- Claim C2 as amended: the filtered sibling list contains exactly those
entries whose extension (the substring from the last dot), lower-cased, is one
of the accepted extensions, regardless of the is-directory flag; a name
without a dot is excluded. -/
theorem c2_filter_amended (children : List FileInfo) :
    filelist children =
      (children.filter
        (fun c => contains validExtensions (toLowerStr (ext c.name)))).map (fun c => c.name) ∧
    ∀ c ∈ children, '.' ∉ c.name.data → c.name ∉ filelist children := by
  refine ⟨filelist_eq children, ?_⟩
  intro c hc hdot hmem
  rw [filelist_eq children] at hmem
  simp only [List.mem_map] at hmem
  obtain ⟨c2, hc2, hname⟩ := hmem
  rw [List.mem_filter] at hc2
  have hext := hc2.2
  have hempty : ext c2.name = "" := by rw [hname]; exact ext_of_not_mem c.name hdot
  rw [hempty] at hext
  exact absurd hext (by decide)

/-- Claim C2, witness: the amended statement evaluated on a listing holding
an accepted image and a name without a dot. -/
theorem c2_witness :
    filelist [⟨"a.png", false⟩, ⟨"noext", false⟩] =
      (([⟨"a.png", false⟩, ⟨"noext", false⟩] : List FileInfo).filter
        (fun c => contains validExtensions (toLowerStr (ext c.name)))).map (fun c => c.name) ∧
    FileInfo.name ⟨"noext", false⟩ ∉ filelist [⟨"a.png", false⟩, ⟨"noext", false⟩] :=
  ⟨(c2_filter_amended [⟨"a.png", false⟩, ⟨"noext", false⟩]).1,
   (c2_filter_amended [⟨"a.png", false⟩, ⟨"noext", false⟩]).2 ⟨"noext", false⟩ (by decide)
     (by decide)⟩

/-- Claim C3: the ordered name sequence is non-decreasing under the byte-wise
string order, every member has an accepted extension, and the found index,
when it is not the not-found sentinel, is a valid index of the sequence. -/
theorem c3_invariants (children : List FileInfo) (target : String) :
    List.Chain' nameLe (orderedNames children) ∧
    (∀ n ∈ orderedNames children, contains validExtensions (toLowerStr (ext n)) = true) ∧
    (findIndex target (orderedNames children) ≠ -1 →
      0 ≤ findIndex target (orderedNames children) ∧
      findIndex target (orderedNames children) < ((orderedNames children).length : Int)) := by
  refine ⟨chain_sortNames (filelist children), ?_, ?_⟩
  · intro n hn
    rw [orderedNames, mem_sortNames, filelist_eq] at hn
    simp only [List.mem_map] at hn
    obtain ⟨c, hc, hname⟩ := hn
    rw [List.mem_filter] at hc
    rw [← hname]
    exact hc.2
  · intro hne
    rcases findIndex_cases target (orderedNames children) with h | ⟨j, hj, h⟩
    · exact absurd h hne
    · rw [h]
      exact ⟨by omega, by exact_mod_cast hj⟩

/-- Claim C3, witness: the invariants on a two-element listing in which the
target occurs. -/
theorem c3_witness :
    0 ≤ findIndex "a.png" (orderedNames [⟨"b.png", false⟩, ⟨"a.png", false⟩]) ∧
    findIndex "a.png" (orderedNames [⟨"b.png", false⟩, ⟨"a.png", false⟩]) <
      ((orderedNames [⟨"b.png", false⟩, ⟨"a.png", false⟩]).length : Int) :=
  (c3_invariants [⟨"b.png", false⟩, ⟨"a.png", false⟩] "a.png").2.2 (by decide)

/-- Claim C4: the claim states that a missing target yields a normal result
with the not-found index and no previous or next neighbor. In
src/cmd/page/page.go the run instead exits the process; in
src/unnamed/part_000 the run continues with `found = -1`, and the next-button
guard `-1 < len(filelist)` then produces `filelist[0]` as next on the
one-element listing, and an out-of-range index access on the empty
listing. -/
theorem c4_not_found_behavior :
    navigate [⟨"a.png", false⟩] "b.png" = NavOutcome.exitNotFound ∧
    navigateKeep [⟨"a.png", false⟩] "b.png" =
      NavOutcome.ok ⟨["a.png"], -1, none, some "a.png"⟩ ∧
    navigateKeep [] "b.png" = NavOutcome.panicIndexOutOfRange := by
  decide

/-- Claim C5: with the target present, a found index of zero yields no
previous neighbor, and a positive found index yields the entry immediately
before it. -/
theorem c5_previous (children : List FileInfo) (target : String)
    (hp : findIndex target (orderedNames children) ≠ -1) :
    (findIndex target (orderedNames children) = 0 →
      previousResult (orderedNames children) (findIndex target (orderedNames children)) =
        Except.ok none) ∧
    (0 < findIndex target (orderedNames children) →
      ∃ p, (orderedNames children)[(findIndex target (orderedNames children)).toNat - 1]? =
          some p ∧
        previousResult (orderedNames children) (findIndex target (orderedNames children)) =
          Except.ok (some p)) := by
  rcases findIndex_cases target (orderedNames children) with h | ⟨j, hj, h⟩
  · exact absurd h hp
  · rw [h]
    constructor
    · intro h0
      have hj0 : j = 0 := by exact_mod_cast h0
      subst hj0
      simp [previousResult]
    · intro hpos
      have hjpos : 0 < j := by omega
      have hlt : j - 1 < (orderedNames children).length := by omega
      have hjn : ((j : Int)).toNat = j := by omega
      refine ⟨(orderedNames children).get ⟨j - 1, hlt⟩, ?_, ?_⟩
      · rw [hjn, List.getElem?_eq_getElem hlt]
        simp [List.get_eq_getElem]
      · have harg : ((j : Int) - 1).toNat = j - 1 := by omega
        simp only [previousResult]
        rw [if_pos hpos, harg, List.getElem?_eq_getElem hlt]
        simp [List.get_eq_getElem]

/-- Claim C5, witness: the previous neighbor on a two-element listing with
the target in second position. -/
theorem c5_witness :
    ∃ p, (orderedNames [⟨"a.png", false⟩, ⟨"b.png", false⟩])[(findIndex "b.png"
        (orderedNames [⟨"a.png", false⟩, ⟨"b.png", false⟩])).toNat - 1]? = some p ∧
      previousResult (orderedNames [⟨"a.png", false⟩, ⟨"b.png", false⟩])
          (findIndex "b.png" (orderedNames [⟨"a.png", false⟩, ⟨"b.png", false⟩])) =
        Except.ok (some p) :=
  (c5_previous [⟨"a.png", false⟩, ⟨"b.png", false⟩] "b.png" (by decide)).2 (by decide)

/-- Claim C6: the scan compares names by exact string equality, and when a
match exists the found index is the last matching position: overwriting with
no early exit. -/
theorem c6_last_match (children : List FileInfo) (target : String) :
    (target ∉ orderedNames children → findIndex target (orderedNames children) = -1) ∧
    (∀ (j : Nat) (hj : j < (orderedNames children).length),
      (orderedNames children).get ⟨j, hj⟩ = target →
      (∀ (k : Nat) (hk : k < (orderedNames children).length), j < k →
        (orderedNames children).get ⟨k, hk⟩ ≠ target) →
      findIndex target (orderedNames children) = (j : Int)) := by
  constructor
  · intro hnm
    exact scanLoop_not_mem target (orderedNames children) hnm 0 (-1)
  · intro j hj hget hlast
    have hres := scanLoop_last target (orderedNames children) 0 (-1) j hj hget hlast
    simpa using hres

/-- Claim C6, witness: duplicated names give the last matching index, and a
name differing only in case is not a match. -/
theorem c6_witness :
    findIndex "a.png" (orderedNames [⟨"a.png", false⟩, ⟨"a.png", false⟩]) = 1 ∧
    findIndex "A.png" (orderedNames [⟨"a.png", false⟩]) = -1 :=
  ⟨(c6_last_match [⟨"a.png", false⟩, ⟨"a.png", false⟩] "a.png").2 1 (by decide) (by decide)
      (fun k hk hlt => by
        have hlen : (orderedNames [⟨"a.png", false⟩, ⟨"a.png", false⟩]).length = 2 := by decide
        have hk2 : k < 2 := hlen ▸ hk
        exact absurd hlt (by omega)),
   (c6_last_match [⟨"a.png", false⟩] "A.png").1 (by decide)⟩

/-- Claim C7: the concrete scenario: listing `["x.PNG", "a.png"]`, target
`"a.png"`: both entries pass the case-insensitive extension filter, the
ordinal sort puts `"a.png"` first, the target is found at index 0, there is no
previous neighbor and the next neighbor is `"x.PNG"`. -/
theorem c7_scenario :
    navigate [⟨"x.PNG", false⟩, ⟨"a.png", false⟩] "a.png" =
      NavOutcome.ok ⟨["a.png", "x.PNG"], 0, none, some "x.PNG"⟩ := by
  decide

/-- Claim C8, counterexample: the claim states the zoom mode is always one of
`"scale"` and `"orig"`, but the code validates the lower-cased value and then
assigns the value as supplied, so the single parameter `"SCALE"` yields the
zoom mode `"SCALE"`. -/
theorem c8_counterexample :
    ¬ (zoomOf ["SCALE"] = "scale" ∨ zoomOf ["SCALE"] = "orig") := by
  decide

/-- Claim C8 as amended: the zoom mode is `"scale"` when no single valid
value is supplied (absent, repeated, or not lower-casing to a valid zoom), and
it equals the supplied value verbatim (possibly mixed-case, hence possibly
outside the two canonical values) when exactly one value lower-casing to a
valid zoom is supplied. -/
theorem c8_zoom_amended (zooms : List String) :
    ((∀ v, zooms = [v] → contains validZooms (toLowerStr v) = false) → zoomOf zooms = "scale") ∧
    (∀ v, zooms = [v] → contains validZooms (toLowerStr v) = true → zoomOf zooms = v) := by
  rcases zooms with _ | ⟨a, _ | ⟨b, rest⟩⟩
  · exact ⟨fun _ => rfl, fun v hv => by simp at hv⟩
  · constructor
    · intro hf
      have ha := hf a rfl
      simp [zoomOf, ha]
    · intro v hv ht
      cases hv
      simp [zoomOf, ht]
  · exact ⟨fun _ => rfl, fun v hv => by simp at hv⟩

/-- Claim C8, witness: a mixed-case valid value is kept verbatim and an
invalid value falls back to `"scale"`. -/
theorem c8_witness :
    zoomOf ["Orig"] = "Orig" ∧ zoomOf ["bogus"] = "scale" :=
  ⟨(c8_zoom_amended ["Orig"]).2 "Orig" rfl (by decide),
   (c8_zoom_amended ["bogus"]).1 (fun v hv => by
      cases hv
      decide)⟩

/-- Claim C9: the target image element is the same string in both zoom
branches (same src attribute, same `center-fit` class); only the zoom icon
differs between the branches. -/
theorem c9_image_independent_of_zoom :
    (∀ zoom filename, imageTag zoom filename =
      " <img src=\"" ++ filename ++ "\" class=\"center-fit\" > \n") ∧
    zoomButton "scale" ≠ zoomButton "orig" := by
  constructor
  · intro zoom filename
    by_cases h : zoom = "scale"
    · simp [imageTag, h]
    · simp [imageTag, h]
  · decide

/-- Claim C10: for levels in the range of the Go 64-bit int, the effective
level is the minimum of the global, package and function levels, and the
Debug and Println gates write exactly when the message level is at most that
minimum. -/
theorem c10_debug_level_gate (f : Function) (g l : Int)
    (hg : g ≤ maxInt) (hp : f.pkg.level ≤ maxInt) (hf : f.level ≤ maxInt) :
    f.Level g = min g (min f.pkg.level f.level) ∧
    (f.DebugWrites g l = true ↔ l ≤ f.Level g) ∧
    (f.PrintlnWrites g l = true ↔ l ≤ f.Level g) := by
  have hL : f.Level g = min g (min f.pkg.level f.level) := by
    simp only [Function.Level, min_def]
    split_ifs <;> omega
  refine ⟨hL, ?_, ?_⟩
  · rw [hL]
    simp only [Function.DebugWrites, min_def]
    split_ifs <;> simp <;> omega
  · rw [hL]
    simp only [Function.PrintlnWrites, min_def]
    split_ifs <;> simp <;> omega

/-- Claim C10, witness: global level 30, package level 50, function level 40
and message level 35: the effective level is 30 and the gates reject 35. -/
theorem c10_witness :
    Function.Level ⟨⟨"p", 50⟩, "f", 40⟩ 30 = min 30 (min 50 40) ∧
    (Function.DebugWrites ⟨⟨"p", 50⟩, "f", 40⟩ 30 35 = true ↔
      35 ≤ Function.Level ⟨⟨"p", 50⟩, "f", 40⟩ 30) ∧
    (Function.PrintlnWrites ⟨⟨"p", 50⟩, "f", 40⟩ 30 35 = true ↔
      35 ≤ Function.Level ⟨⟨"p", 50⟩, "f", 40⟩ 30) :=
  c10_debug_level_gate ⟨⟨"p", 50⟩, "f", 40⟩ 30 35 (by decide) (by decide) (by decide)

end Pages
